import Mathlib

/-!
Verification development for the trackerA11y streaming audio-event pipeline
(`audio_pipeline` package).  The Python sources are shallowly embedded:

* floating-point times, durations and confidences are modelled as rationals
  (`ℚ`), since the pipeline only adds, subtracts, divides, compares and takes
  `min`/`max` of them;
* Python `dict`s with insertion order become insertion-ordered association
  lists (`groupByKey`);
* Python's stable `list.sort(key=...)` becomes `List.insertionSort` over the
  key order (any stable sort computes the same list);
* `asyncio.Queue` becomes a list together with the `maxsize` discipline of
  `put_nowait` (a queue is full iff `0 < maxsize ≤ length`);
* exceptions thrown by the diarization / transcription capabilities become
  `Except` values, and the event-loop execution of workers is sequentialised.

Definitions mirror the code in
`src/audio_pipeline/src/audio_pipeline/processors/{audio_processor,
diarization, transcription}.py`; theorems at the end of the file settle the
specification claims.
-/

namespace TrackerA11y

open List
/-- Embedding of `diarization.SpeakerSegment` (dataclass). -/
structure SpeakerSegment where
  speaker_id : String
  start_time : ℚ
  end_time : ℚ
  confidence : ℚ
  audio_chunk_ids : List Nat
  session_id : String
deriving DecidableEq, Repr

/-- Embedding of `transcription.TranscriptionSegment` (dataclass);
`speaker_id : Optional[str]` becomes `Option String`. -/
structure TranscriptionSegment where
  text : String
  start_time : ℚ
  end_time : ℚ
  confidence : ℚ
  language : String
  speaker_id : Option String
  session_id : String
deriving DecidableEq, Repr

/-- Embedding of `TranscriptionSegment.duration` (`end_time - start_time`). -/
def TranscriptionSegment.duration (s : TranscriptionSegment) : ℚ :=
  s.end_time - s.start_time

/-- Embedding of `transcription.TranscriptionResult` (dataclass); the
`datetime` timestamp is modelled as a rational epoch value. -/
structure TranscriptionResult where
  segments : List TranscriptionSegment
  full_text : String
  language : String
  processing_time : ℚ
  timestamp : ℚ
  session_id : String
  model_name : String
deriving DecidableEq, Repr

/-- Embedding of `diarization.DiarizationResult` (dataclass). -/
structure DiarizationResult where
  segments : List SpeakerSegment
  total_speakers : Nat
  total_duration : ℚ
  timestamp : ℚ
  session_id : String
  processing_time : ℚ
deriving DecidableEq, Repr

/-- Embedding of `recorder.AudioChunk`; the float32 sample array becomes a
list of rationals. -/
structure AudioChunk where
  data : List ℚ
  timestamp : ℚ
  sample_rate : Nat
  channels : Nat
  chunk_id : Nat
  session_id : String
deriving DecidableEq, Repr

/-- Embedding of `audio_processor.AudioEvent` (dataclass).  The `uuid4` id is
external nondeterminism and is modelled as the empty string. -/
structure AudioEvent where
  id : String
  timestamp : ℤ
  source : String
  session_id : String
  processing_time : ℚ
  text : String
  language : String
  confidence : ℚ
  speaker_id : Option String
  speaker_segments : List SpeakerSegment
  start_time : ℚ
  end_time : ℚ
deriving DecidableEq, Repr

/-! ### Stable sorting by a rational key: Python `list.sort(key=...)` -/

/-- Ordering by a rational-valued key, used for every `sort(key=...)` call in
the sources. -/
def keyLE {α : Type} (f : α → ℚ) (a b : α) : Prop := f a ≤ f b

instance {α : Type} (f : α → ℚ) : DecidableRel (keyLE f) :=
  fun a b => inferInstanceAs (Decidable (f a ≤ f b))

instance {α : Type} (f : α → ℚ) : IsTotal α (keyLE f) :=
  ⟨fun a b => le_total (f a) (f b)⟩

instance {α : Type} (f : α → ℚ) : IsTrans α (keyLE f) :=
  ⟨fun _ _ _ h h' => le_trans h h'⟩

/-- Key order used by `segments.sort(key=lambda x: x.start_time)` in
`diarization.py`. -/
abbrev segLE : SpeakerSegment → SpeakerSegment → Prop :=
  keyLE SpeakerSegment.start_time

/-- Key order used by `events.sort(key=lambda x: x.start_time)` in
`audio_processor.py`. -/
abbrev eventLE : AudioEvent → AudioEvent → Prop :=
  keyLE AudioEvent.start_time

/-! ### Insertion-ordered grouping (Python `dict` accumulation) -/

/-- One step of dict accumulation: append `s` to the bucket of `key s`,
creating the bucket at the end if it does not exist yet. -/
def addToGroups {α : Type} (key : α → String) :
    List (String × List α) → α → List (String × List α)
  | [], s => [(key s, [s])]
  | (k, g) :: rest, s =>
    if k = key s then (k, g ++ [s]) :: rest
    else (k, g) :: addToGroups key rest s

/-- Insertion-ordered grouping of a list by a string key, as performed by the
`for segment in segments: dict.setdefault-style append` loops. -/
def groupByKey {α : Type} (key : α → String) (l : List α) :
    List (String × List α) :=
  l.foldl (addToGroups key) []

/-! ### `SpeakerDiarizer.merge_overlapping_segments` (diarization.py:241-288) -/

/-- Embedding of the per-speaker loop of `merge_overlapping_segments`:
`current = speaker_segs[0]; for next_segment in speaker_segs[1:]: ...`.
`k` is the dict key `speaker_id` the merged segment is built with. -/
def mergeLoop (tol : ℚ) (k : String) :
    SpeakerSegment → List SpeakerSegment → List SpeakerSegment
  | current, [] => [current]
  | current, nxt :: rest =>
    if nxt.start_time ≤ current.end_time + tol then
      mergeLoop tol k
        { speaker_id := k
          start_time := current.start_time
          end_time := max current.end_time nxt.end_time
          confidence := max current.confidence nxt.confidence
          audio_chunk_ids := current.audio_chunk_ids ++ nxt.audio_chunk_ids
          session_id := current.session_id } rest
    else current :: mergeLoop tol k nxt rest

/-- Embedding of one iteration of the `for speaker_id, speaker_segs in
speaker_segments.items()` loop: sort the bucket by `start_time`, then run the
merge fold. -/
def mergeGroup (tol : ℚ) (k : String) (g : List SpeakerSegment) :
    List SpeakerSegment :=
  match List.insertionSort segLE g with
  | [] => []
  | c :: rest => mergeLoop tol k c rest

/-- Embedding of `SpeakerDiarizer.merge_overlapping_segments(segments,
tolerance)`: after the `if not segments: return []` guard, group by speaker
in insertion order, merge each bucket, then globally re-sort by `start_time`
(Python's stable `list.sort`). -/
def merge_overlapping_segments : List SpeakerSegment → ℚ → List SpeakerSegment
  | [], _ => []
  | s :: rest, tol =>
    List.insertionSort segLE
      (((groupByKey SpeakerSegment.speaker_id (s :: rest)).map
          (fun kg => mergeGroup tol kg.1 kg.2)).flatten)

/-- Gap relation left behind by the merge fold: the next segment starts
strictly after the current segment's end plus the tolerance. -/
def gapGT (tol : ℚ) (a b : SpeakerSegment) : Prop :=
  a.end_time + tol < b.start_time

/-- Result of merging the accumulated segment with the next one, as built in
the `if` branch of the fold. -/
def mergedSeg (k : String) (current nxt : SpeakerSegment) : SpeakerSegment :=
  { speaker_id := k
    start_time := current.start_time
    end_time := max current.end_time nxt.end_time
    confidence := max current.confidence nxt.confidence
    audio_chunk_ids := current.audio_chunk_ids ++ nxt.audio_chunk_ids
    session_id := current.session_id }

/-- Per-speaker result of the merge: the speaker's input segments, sorted and
folded by the merge loop. -/
def mergedOfSpeaker (tol : ℚ) (k : String) (segs : List SpeakerSegment) :
    List SpeakerSegment :=
  mergeGroup tol k (segs.filter (fun s => s.speaker_id == k))

/-! ### `TranscriptionProcessor._find_speaker_for_segment` and
`align_with_speaker_diarization` (transcription.py:249-273, 300-333) -/

/-- Ratio a candidate speaker segment contributes in
`_find_speaker_for_segment`: the overlap divided by the transcription
segment's duration when the overlap is strictly positive, and `0` otherwise
(candidates without positive overlap are skipped by the loop). -/
def posRatio (ts : TranscriptionSegment) (ss : SpeakerSegment) : ℚ :=
  if max ts.start_time ss.start_time < min ts.end_time ss.end_time then
    (min ts.end_time ss.end_time - max ts.start_time ss.start_time) / ts.duration
  else 0

/-- Embedding of the `for speaker_seg in speaker_segments` loop of
`_find_speaker_for_segment`, threading `best_overlap` and `best_speaker`. -/
def findLoop (ts : TranscriptionSegment) :
    List SpeakerSegment → ℚ → Option String → ℚ × Option String
  | [], best, bs => (best, bs)
  | ss :: rest, best, bs =>
    if max ts.start_time ss.start_time < min ts.end_time ss.end_time then
      if best < (min ts.end_time ss.end_time - max ts.start_time ss.start_time) / ts.duration then
        findLoop ts rest
          ((min ts.end_time ss.end_time - max ts.start_time ss.start_time) / ts.duration)
          (some ss.speaker_id)
      else findLoop ts rest best bs
    else findLoop ts rest best bs

/-- Embedding of `TranscriptionProcessor._find_speaker_for_segment`. -/
def find_speaker_for_segment (ts : TranscriptionSegment)
    (speaker_segments : List SpeakerSegment) : Option String :=
  if ts.duration ≤ 0 then none
  else
    if 1/2 < (findLoop ts speaker_segments 0 none).1 then
      (findLoop ts speaker_segments 0 none).2
    else none

/-- Specification-side maximal overlap ratio over all candidates. -/
def bestRatio (ts : TranscriptionSegment) (cands : List SpeakerSegment) : ℚ :=
  (cands.map (posRatio ts)).foldl max 0

/-- Embedding of `TranscriptionProcessor.align_with_speaker_diarization`:
rebuild every segment with the speaker found by
`_find_speaker_for_segment`, then rebuild the result around the new
segment list. -/
def align_with_speaker_diarization (transcription : TranscriptionResult)
    (speaker_segments : List SpeakerSegment) : TranscriptionResult :=
  { segments := transcription.segments.map (fun segment =>
      { text := segment.text
        start_time := segment.start_time
        end_time := segment.end_time
        confidence := segment.confidence
        language := segment.language
        speaker_id := find_speaker_for_segment segment speaker_segments
        session_id := segment.session_id })
    full_text := transcription.full_text
    language := transcription.language
    processing_time := transcription.processing_time
    timestamp := transcription.timestamp
    session_id := transcription.session_id
    model_name := transcription.model_name }

/-! ### `AudioProcessor._create_audio_events` (audio_processor.py:320-380) -/

/-- Python truthiness of `segment.speaker_id or "unknown"`: both `None` and
the empty string are falsy and fall back to `"unknown"`. -/
def speakerKey (seg : TranscriptionSegment) : String :=
  match seg.speaker_id with
  | none => "unknown"
  | some s => if s = "" then "unknown" else s

/-- Python `min` over a list (the code only calls it on nonempty groups;
the empty case is given the junk value 0). -/
def pyMin : List ℚ → ℚ
  | [] => 0
  | x :: xs => xs.foldl min x

/-- Python `max` over a list (the code only calls it on nonempty groups;
the empty case is given the junk value 0). -/
def pyMax : List ℚ → ℚ
  | [] => 0
  | x :: xs => xs.foldl max x

/-- Arithmetic mean as computed by `np.mean` (the code only calls it on
nonempty groups; the empty case is given the junk value 0). -/
def pyMean (l : List ℚ) : ℚ := l.sum / (l.length : ℚ)

/-- Python `int(q)`: truncation toward zero. -/
def pyInt (q : ℚ) : ℤ := q.num / (q.den : ℤ)

/-- Python `str.strip()`: drop leading and trailing whitespace. -/
def pyStrip (s : String) : String :=
  ⟨((s.data.dropWhile Char.isWhitespace).reverse.dropWhile
      Char.isWhitespace).reverse⟩

/-- Event built for one speaker group in `_create_audio_events`, mirroring
the body of the `for speaker_id, segments in speaker_texts.items()` loop. -/
def mkEvent (session_id : String) (transcription : TranscriptionResult)
    (diarization : DiarizationResult) (chunks : List AudioChunk)
    (speaker_id : String) (segments : List TranscriptionSegment) : AudioEvent :=
  { id := ""
    timestamp :=
      pyInt (((match chunks with | [] => 0 | c :: _ => c.timestamp) +
        pyMin (segments.map TranscriptionSegment.start_time)) * 1000000)
    source := "audio"
    session_id := session_id
    processing_time := transcription.processing_time
    text := pyStrip (String.intercalate " " (segments.map TranscriptionSegment.text))
    language := transcription.language
    confidence := pyMean (segments.map TranscriptionSegment.confidence)
    speaker_id := some speaker_id
    speaker_segments := diarization.segments.filter (fun s => s.speaker_id == speaker_id)
    start_time := pyMin (segments.map TranscriptionSegment.start_time)
    end_time := pyMax (segments.map TranscriptionSegment.end_time) }

/-- Embedding of `AudioProcessor._create_audio_events`: group the
transcription segments by `speaker_id or "unknown"` in insertion order, skip
empty groups (`if not segments: continue`, which never fires), build one
event per group and stable-sort the events by `start_time`. -/
def create_audio_events (session_id : String)
    (transcription : TranscriptionResult) (diarization : DiarizationResult)
    (chunks : List AudioChunk) : List AudioEvent :=
  List.insertionSort eventLE
    (((groupByKey speakerKey transcription.segments).filter
        (fun kg => !kg.2.isEmpty)).map
      (fun kg => mkEvent session_id transcription diarization chunks kg.1 kg.2))

/-! ### Dispatch queue and chunk accumulator (audio_processor.py:114-178) -/

/-- Semantics of `asyncio.Queue(maxsize)`: the queue is full iff
`0 < maxsize ≤ len(queue)`; `put_nowait` raises `QueueFull` exactly on a
full queue (modelled by `none`) and otherwise appends. -/
def put_nowait {α : Type} (maxsize : Nat) (q : List α) (x : α) :
    Option (List α) :=
  if 0 < maxsize ∧ maxsize ≤ q.length then none else some (q ++ [x])

/-- The processor's dispatch queue is constructed as `asyncio.Queue()` in
`AudioProcessor.__init__` -- the default `maxsize = 0`, i.e. unbounded. -/
def processorQueueMaxsize : Nat := 0

/-- Duration in seconds of one chunk, `len(c.data) / c.sample_rate`. -/
def chunkDuration (c : AudioChunk) : ℚ :=
  (c.data.length : ℚ) / (c.sample_rate : ℚ)

/-- Accumulator-visible state of the `AudioProcessor`.  `dropped` counts
executions of the `except asyncio.QueueFull` log-and-drop branch. -/
structure AccumState where
  audio_buffer : List AudioChunk
  last_processing_time : ℚ
  processing_queue : List (List AudioChunk)
  dropped : Nat
deriving DecidableEq, Repr

/-- Embedding of `AudioProcessor._on_audio_chunk`, parameterised by the
queue's `maxsize` (the code constructs it with `processorQueueMaxsize`):
append the chunk, then dispatch a window iff the process interval has
elapsed and the buffered duration reaches the minimum; on dispatch the
buffer is snapshot-and-cleared and `last_processing_time` advances before
the non-blocking push is attempted. -/
def on_audio_chunk (process_interval min_audio_duration : ℚ) (maxsize : Nat)
    (st : AccumState) (chunk : AudioChunk) : AccumState :=
  let buf := st.audio_buffer ++ [chunk]
  if process_interval ≤ chunk.timestamp - st.last_processing_time then
    if min_audio_duration ≤ (buf.map chunkDuration).sum then
      match put_nowait maxsize st.processing_queue buf with
      | some q' =>
        { audio_buffer := []
          last_processing_time := chunk.timestamp
          processing_queue := q'
          dropped := st.dropped }
      | none =>
        { audio_buffer := []
          last_processing_time := chunk.timestamp
          processing_queue := st.processing_queue
          dropped := st.dropped + 1 }
    else { st with audio_buffer := buf }
  else { st with audio_buffer := buf }

/-! ### Worker pool, window processing and shutdown
(audio_processor.py:204-318), with the event-loop execution sequentialised -/

/-- Outcome of one capability call; `Except.error` models a raised
exception. -/
abbrev Capability (α : Type) : Type := List ℚ → Nat → String → Except String α

/-- Embedding of `AudioProcessor._process_audio_chunks`: concatenate the
chunk data, run diarization and transcription, align, synthesize events and
deliver them to the callback.  The whole body sits in a `try/except` that
logs and swallows any failure, so a failing capability call yields no
events and no exception. -/
def process_audio_chunks (diarize : Capability DiarizationResult)
    (transcribe : Capability TranscriptionResult) (session_id : String)
    (chunks : List AudioChunk) : List AudioEvent :=
  match chunks with
  | [] => []
  | c :: _ =>
    match diarize ((chunks.map AudioChunk.data).flatten) c.sample_rate session_id,
        transcribe ((chunks.map AudioChunk.data).flatten) c.sample_rate session_id with
    | .ok dr, .ok tr =>
      create_audio_events session_id
        (align_with_speaker_diarization tr dr.segments) dr chunks
    | .ok _, .error _ => []
    | .error _, .ok _ => []
    | .error _, .error _ => []

/-- Embedding of `AudioProcessor._processing_worker`: pop queue items until
the `None` sentinel, process each window, and return the events delivered to
the callback, in delivery order. -/
def processing_worker (diarize : Capability DiarizationResult)
    (transcribe : Capability TranscriptionResult) (session_id : String) :
    List (Option (List AudioChunk)) → List AudioEvent
  | [] => []
  | none :: _ => []
  | some chunks :: rest =>
    process_audio_chunks diarize transcribe session_id chunks ++
      processing_worker diarize transcribe session_id rest

/-- Processor state visible to `stop_recording`. -/
structure ProcState where
  is_processing : Bool
  audio_buffer : List AudioChunk
  processing_queue : List (Option (List AudioChunk))
  processing_tasks : Nat
  delivered : List AudioEvent
deriving DecidableEq, Repr

/-- Ordered externally visible steps taken by `stop_recording`. -/
inductive StopAction where
  | stoppedRecorder
  | deliveredFinal (evs : List AudioEvent)
  | sentinel
  | workersAwaited
deriving DecidableEq, Repr

/-- Embedding of `AudioProcessor.stop_recording` (sequentialised): stop the
recorder; if the buffer is nonempty, flush it as one forced window whose
events are delivered inline; push one `None` sentinel per worker; await the
workers, which drain the queue to exhaustion; clear the task list and the
processing flag.  The returned action list records the order of the
externally visible steps. -/
def stop_recording (diarize : Capability DiarizationResult)
    (transcribe : Capability TranscriptionResult) (session_id : String)
    (st : ProcState) : ProcState × List StopAction :=
  if st.is_processing = false then (st, [])
  else
    let finalEvents :=
      process_audio_chunks diarize transcribe session_id st.audio_buffer
    let flushActs : List StopAction :=
      if st.audio_buffer.isEmpty then [] else [.deliveredFinal finalEvents]
    let drained :=
      if st.processing_tasks = 0 then []
      else
        processing_worker diarize transcribe session_id
          (st.processing_queue ++ List.replicate st.processing_tasks none)
    ({ is_processing := false
       audio_buffer := []
       processing_queue :=
         if st.processing_tasks = 0 then st.processing_queue else []
       processing_tasks := 0
       delivered :=
         st.delivered ++
           (if st.audio_buffer.isEmpty then [] else finalEvents) ++ drained },
     [.stoppedRecorder] ++ flushActs ++
       List.replicate st.processing_tasks .sentinel ++
       (if st.processing_tasks = 0 then [] else [.workersAwaited]))

/-! ### Concrete inputs used by claim witnesses and counterexamples -/

/-- Chunk with one second of audio (one sample at rate 1) at a given
timestamp. -/
def c1Chunk (ts : ℚ) : AudioChunk := ⟨[0], ts, 1, 1, 0, "s"⟩

/-- Three accumulator steps, each satisfying the dispatch condition, against
the queue as the code constructs it (`asyncio.Queue()`, `maxsize = 0`). -/
def c1Run : AccumState :=
  on_audio_chunk 2 1 processorQueueMaxsize
    (on_audio_chunk 2 1 processorQueueMaxsize
      (on_audio_chunk 2 1 processorQueueMaxsize ⟨[], 0, [], 0⟩ (c1Chunk 2))
      (c1Chunk 4))
    (c1Chunk 6)

/-- Speaker-A segment `[5,6]`, listed first in the counterexample input. -/
def cexA : SpeakerSegment := ⟨"A", 5, 6, 1, [], "s"⟩

/-- Speaker-B segment `[0,1]`. -/
def cexB1 : SpeakerSegment := ⟨"B", 0, 1, 1, [], "s"⟩

/-- Speaker-B segment `[5,6]`, tied with `cexA` on start time. -/
def cexB2 : SpeakerSegment := ⟨"B", 5, 6, 1, [], "s"⟩

/-- Input on which the merge is not list-equal idempotent: the grouping
order changes between the two runs and the stable sort then orders the
equal-start segments `cexA`/`cexB2` differently. -/
def cexSegs : List SpeakerSegment := [cexA, cexB1, cexB2]

/-- Transcription segment `[1,3]` from the spec scenario. -/
def c3ts : TranscriptionSegment := ⟨"text", 1, 3, 1, "en", none, "s"⟩

/-- Speaker segment `A:[2,3]`: overlap 1, ratio exactly 1/2. -/
def c3ssHalf : SpeakerSegment := ⟨"A", 2, 3, 1, [], "s"⟩

/-- Speaker-A segment `[0,2]` from the spec merge scenario. -/
def c4a1 : SpeakerSegment := ⟨"A", 0, 2, 1, [], "s"⟩

/-- Speaker-A segment `[2.3,4]` from the spec merge scenario. -/
def c4a2 : SpeakerSegment := ⟨"A", 23/10, 4, 1, [], "s"⟩

/-- Speaker-B segment `[2.4,4]` from the spec merge scenario. -/
def c4b : SpeakerSegment := ⟨"B", 12/5, 4, 1, [], "s"⟩

/-- Transcription segment with an assigned speaker. -/
def wSegA : TranscriptionSegment := ⟨"hello", 0, 1, 1, "en", some "A", "s"⟩

/-- Transcription segment with an unset (`None`) speaker. -/
def wSegNone : TranscriptionSegment := ⟨"mystery", 2, 3, 1, "en", none, "s"⟩

/-- Transcription result with one attributed and one unattributed segment. -/
def wTr : TranscriptionResult :=
  ⟨[wSegA, wSegNone], "hello mystery", "en", 0, 0, "s", "m"⟩

/-- Diarization result with a single speaker-A segment. -/
def wDr : DiarizationResult := ⟨[⟨"A", 0, 1, 1, [], "s"⟩], 1, 1, 0, "s", 0⟩

/-- Chunk with one second of audio (two samples at rate 2) at time 3. -/
def w6chunk : AudioChunk := ⟨[0, 0], 3, 2, 1, 0, "s"⟩

/-- Fresh accumulator state. -/
def w6st : AccumState := ⟨[], 0, [], 0⟩

/-- Diarization capability that always succeeds with an empty result. -/
def w7dOk : Capability DiarizationResult := fun _ _ _ => .ok ⟨[], 0, 0, 0, "s", 0⟩

/-- Transcription capability that always succeeds with an empty result. -/
def w7tOk : Capability TranscriptionResult :=
  fun _ _ _ => .ok ⟨[], "", "en", 0, 0, "s", "m"⟩

/-- A buffered chunk awaiting dispatch when `stop_recording` is called. -/
def w7chunk : AudioChunk := ⟨[0], 0, 1, 1, 0, "s"⟩

/-- Recording state with a nonempty buffer, one worker and an empty queue. -/
def w7st : ProcState := ⟨true, [w7chunk], [], 1, []⟩

/-- A window for the failing-worker witness. -/
def c8chunk : AudioChunk := ⟨[0], 0, 1, 1, 0, "s"⟩

/-- Diarization capability that always raises. -/
def c8dFail : Capability DiarizationResult := fun _ _ _ => .error "model failure"

/-- Transcription capability that always succeeds. -/
def c8tOk : Capability TranscriptionResult :=
  fun _ _ _ => .ok ⟨[], "", "en", 0, 0, "s", "m"⟩

/-- Transcription segment whose text carries surrounding whitespace. -/
def c5cseg : TranscriptionSegment := ⟨" hi ", 0, 1, 1, "en", some "A", "s"⟩

/-- Transcription result holding the whitespace-padded segment. -/
def c5ctr : TranscriptionResult := ⟨[c5cseg], " hi ", "en", 0, 0, "s", "m"⟩

/-- Empty diarization result. -/
def c5cdr : DiarizationResult := ⟨[], 0, 0, 0, "s", 0⟩


/-! ### Theorems -/

theorem addToGroups_of_mem {α : Type} (key : α → String) (s : α) :
    ∀ gs : List (String × List α), ((gs.map Prod.fst).Nodup) →
      key s ∈ gs.map Prod.fst →
      addToGroups key gs s =
        gs.map (fun kg => if kg.1 = key s then (kg.1, kg.2 ++ [s]) else kg)
  | [], _, hmem => by simp at hmem
  | (k, g) :: rest, hnd, hmem => by
    simp only [List.map_cons, List.nodup_cons] at hnd
    by_cases hk : k = key s
    · simp only [addToGroups, if_pos hk, List.map_cons, if_pos hk]
      congr 1
      have hrest : ∀ kg ∈ rest,
          (if kg.1 = key s then (kg.1, kg.2 ++ [s]) else kg) = kg := by
        intro kg hkg
        have hne : kg.1 ≠ key s := by
          intro h
          apply hnd.1
          rw [hk, ← h]
          exact List.mem_map_of_mem Prod.fst hkg
        simp [hne]
      rw [List.map_congr_left hrest]
      simp
    · have hmem' : key s ∈ rest.map Prod.fst := by
        rcases List.mem_cons.mp hmem with h | h
        · exact absurd h.symm hk
        · exact h
      simp only [addToGroups, if_neg hk, List.map_cons, if_neg hk]
      exact congrArg _ (addToGroups_of_mem key s rest hnd.2 hmem')

theorem addToGroups_of_not_mem {α : Type} (key : α → String) (s : α) :
    ∀ gs : List (String × List α), key s ∉ gs.map Prod.fst →
      addToGroups key gs s = gs ++ [(key s, [s])]
  | [], _ => rfl
  | (k, g) :: rest, hmem => by
    have hk : k ≠ key s := by
      intro h
      exact hmem (by simp [h])
    have hmem' : key s ∉ rest.map Prod.fst := fun h => hmem (by simp [h])
    simp only [addToGroups, if_neg hk, List.cons_append]
    exact congrArg _ (addToGroups_of_not_mem key s rest hmem')

/-- Full characterisation of the dict-accumulation loop: every bucket is the
filter of the input by its key, bucket keys are distinct, and a key has a
bucket exactly when some element maps to it. -/
theorem groupByKey_spec {α : Type} (key : α → String) (l : List α) :
    (∀ kg ∈ groupByKey key l, kg.2 = l.filter (fun s => key s == kg.1)) ∧
      ((groupByKey key l).map Prod.fst).Nodup ∧
      (∀ k, k ∈ (groupByKey key l).map Prod.fst ↔ k ∈ l.map key) := by
  induction l using List.reverseRecOn with
  | nil => simp [groupByKey]
  | append_singleton l s ih =>
    obtain ⟨hfilt, hnd, hiff⟩ := ih
    have hstep : groupByKey key (l ++ [s]) = addToGroups key (groupByKey key l) s := by
      simp [groupByKey]
    by_cases hmem : key s ∈ (groupByKey key l).map Prod.fst
    · rw [hstep, addToGroups_of_mem key s _ hnd hmem]
      refine ⟨?_, ?_, ?_⟩
      · intro kg hkg
        rcases List.mem_map.mp hkg with ⟨kg', hkg', hkg'eq⟩
        by_cases hk : kg'.1 = key s
        · subst hkg'eq
          simp only [if_pos hk, List.filter_append]
          rw [← hfilt kg' hkg']
          simp [hk, List.filter]
        · subst hkg'eq
          simp only [if_neg hk, List.filter_append]
          rw [← hfilt kg' hkg']
          have : (key s == kg'.1) = false := by
            simp [beq_iff_eq]
            exact fun h => hk h.symm
          simp [List.filter, this]
      · have : (List.map Prod.fst
            ((groupByKey key l).map
              (fun kg => if kg.1 = key s then (kg.1, kg.2 ++ [s]) else kg))) =
            (groupByKey key l).map Prod.fst := by
          rw [List.map_map]
          apply List.map_congr_left
          intro kg _
          by_cases hk : kg.1 = key s <;> simp [hk]
        rw [this]
        exact hnd
      · intro k
        have : (List.map Prod.fst
            ((groupByKey key l).map
              (fun kg => if kg.1 = key s then (kg.1, kg.2 ++ [s]) else kg))) =
            (groupByKey key l).map Prod.fst := by
          rw [List.map_map]
          apply List.map_congr_left
          intro kg _
          by_cases hk : kg.1 = key s <;> simp [hk]
        rw [this, hiff k, List.map_append, List.mem_append]
        constructor
        · exact Or.inl
        · rintro (h | h)
          · exact h
          · simp only [List.map_cons, List.map_nil, List.mem_singleton] at h
            rw [h]
            exact (hiff (key s)).mp hmem
    · rw [hstep, addToGroups_of_not_mem key s _ hmem]
      refine ⟨?_, ?_, ?_⟩
      · intro kg hkg
        rcases List.mem_append.mp hkg with hkg | hkg
        · have hk : kg.1 ≠ key s := by
            intro h
            exact hmem (h ▸ List.mem_map_of_mem Prod.fst hkg)
          rw [List.filter_append, ← hfilt kg hkg]
          have : (key s == kg.1) = false := by
            simp [beq_iff_eq]
            exact fun h => hk h.symm
          simp [List.filter, this]
        · simp at hkg
          subst hkg
          simp only [List.filter_append]
          have hnone : l.filter (fun s' => key s' == key s) = [] := by
            rw [List.filter_eq_nil_iff]
            intro a ha hkey
            have : key a = key s := by simpa [beq_iff_eq] using hkey
            exact hmem ((hiff (key s)).mpr (this ▸ List.mem_map_of_mem key ha))
          simp [hnone, List.filter]
      · simp only [List.map_append, List.map_cons, List.map_nil]
        rw [List.nodup_append]
        refine ⟨hnd, List.nodup_singleton _, ?_⟩
        intro a ha hb
        simp at hb
        subst hb
        exact hmem ha
      · intro k
        have hk := hiff k
        simp only [List.map_append, List.map_cons, List.map_nil, List.mem_append,
          List.mem_singleton]
        rw [hk]

theorem addToGroups_flatten_perm {α : Type} (key : α → String) (s : α) :
    ∀ gs : List (String × List α),
      ((addToGroups key gs s).map Prod.snd).flatten ~
        (gs.map Prod.snd).flatten ++ [s]
  | [] => by simp [addToGroups]
  | (k, g) :: rest => by
    by_cases hk : k = key s
    · simp only [addToGroups, if_pos hk, List.map_cons, List.flatten_cons]
      calc (g ++ [s]) ++ (rest.map Prod.snd).flatten
          ~ g ++ ([s] ++ (rest.map Prod.snd).flatten) := by
            rw [List.append_assoc]
        _ ~ g ++ ((rest.map Prod.snd).flatten ++ [s]) :=
            List.Perm.append_left g (List.perm_append_comm)
        _ ~ (g ++ (rest.map Prod.snd).flatten) ++ [s] := by
            rw [List.append_assoc]
    · simp only [addToGroups, if_neg hk, List.map_cons, List.flatten_cons]
      calc g ++ ((addToGroups key rest s).map Prod.snd).flatten
          ~ g ++ ((rest.map Prod.snd).flatten ++ [s]) :=
            List.Perm.append_left g (addToGroups_flatten_perm key s rest)
        _ ~ (g ++ (rest.map Prod.snd).flatten) ++ [s] := by
            rw [List.append_assoc]

theorem groupByKey_flatten_perm {α : Type} (key : α → String) (l : List α) :
    ((groupByKey key l).map Prod.snd).flatten ~ l := by
  suffices h : ∀ (l : List α) (gs : List (String × List α)),
      ((l.foldl (addToGroups key) gs).map Prod.snd).flatten ~
        (gs.map Prod.snd).flatten ++ l by
    simpa using h l []
  intro l
  induction l with
  | nil => simp
  | cons s l ih =>
    intro gs
    calc ((l.foldl (addToGroups key) (addToGroups key gs s)).map Prod.snd).flatten
        ~ ((addToGroups key gs s).map Prod.snd).flatten ++ l := ih _
      _ ~ ((gs.map Prod.snd).flatten ++ [s]) ++ l :=
          (addToGroups_flatten_perm key s gs).append_right l
      _ ~ (gs.map Prod.snd).flatten ++ (s :: l) := by
          rw [List.append_assoc]
          rfl

/-! ### Stability of the sort: filtering commutes with sorting -/

theorem orderedInsert_filter {α : Type} (r : α → α → Prop) [DecidableRel r]
    [IsTrans α r] [IsTotal α r] (p : α → Bool) (a : α) :
    ∀ l : List α, l.Sorted r →
      (l.orderedInsert r a).filter p =
        if p a then (l.filter p).orderedInsert r a else l.filter p
  | [], _ => by
    by_cases hpa : p a <;> simp [List.orderedInsert, List.filter, hpa]
  | b :: l, hsort => by
    have hsort' : l.Sorted r := hsort.of_cons
    by_cases hr : r a b
    · rw [List.orderedInsert_of_le _ _ hr]
      by_cases hpa : p a
      · by_cases hpb : p b
        · simp only [List.filter_cons, hpa, hpb, if_pos]
          rw [List.orderedInsert_of_le _ _ hr]
        · simp only [List.filter_cons, hpa, hpb]
          simp only [if_pos rfl, Bool.false_eq_true, if_false]
          have : ∀ c ∈ l.filter p, r a c := by
            intro c hc
            rcases List.mem_filter.mp hc with ⟨hcl, _⟩
            exact Trans.trans hr (List.rel_of_sorted_cons hsort c hcl)
          cases hfl : l.filter p with
          | nil => simp [List.orderedInsert]
          | cons c cs =>
            have hrac : r a c := this c (hfl ▸ List.mem_cons_self c cs)
            simp [List.orderedInsert, hrac]
      · by_cases hpb : p b <;>
          simp [List.filter_cons, hpa, hpb]
    · simp only [List.orderedInsert, if_neg hr]
      by_cases hpb : p b
      · simp only [List.filter_cons, hpb, if_pos]
        rw [orderedInsert_filter r p a l hsort']
        by_cases hpa : p a
        · simp only [hpa, if_pos rfl]
          simp [List.orderedInsert, hr]
        · simp [hpa]
      · simp only [List.filter_cons, hpb]
        simp only [Bool.false_eq_true, if_false]
        rw [orderedInsert_filter r p a l hsort']

/-- A stable sort commutes with `filter`: sorting then filtering equals
filtering then sorting.  This captures exactly the stability of Python's
`list.sort`. -/
theorem insertionSort_filter {α : Type} (r : α → α → Prop) [DecidableRel r]
    [IsTrans α r] [IsTotal α r] (p : α → Bool) :
    ∀ l : List α, (l.insertionSort r).filter p = (l.filter p).insertionSort r
  | [] => rfl
  | a :: l => by
    simp only [List.insertionSort]
    rw [orderedInsert_filter r p a _ (List.sorted_insertionSort r l),
      insertionSort_filter r p l]
    by_cases hpa : p a
    · simp [List.filter_cons, hpa, List.insertionSort]
    · simp [List.filter_cons, hpa]

theorem merge_ne_nil_eq (segs : List SpeakerSegment) (tol : ℚ)
    (h : segs ≠ []) :
    merge_overlapping_segments segs tol =
      List.insertionSort segLE
        (((groupByKey SpeakerSegment.speaker_id segs).map
            (fun kg => mergeGroup tol kg.1 kg.2)).flatten) := by
  obtain ⟨s, rest, rfl⟩ := List.exists_cons_of_ne_nil h
  rfl

theorem mergeLoop_ne_nil (tol : ℚ) (k : String) :
    ∀ (c : SpeakerSegment) (rest : List SpeakerSegment),
      mergeLoop tol k c rest ≠ []
  | _, [] => by simp [mergeLoop]
  | c, nxt :: rest => by
    by_cases h : nxt.start_time ≤ c.end_time + tol
    · simpa [mergeLoop, h] using mergeLoop_ne_nil tol k _ rest
    · simp [mergeLoop, h]

theorem mergeLoop_head_start (tol : ℚ) (k : String) :
    ∀ (c : SpeakerSegment) (rest : List SpeakerSegment),
      ∃ c' t, mergeLoop tol k c rest = c' :: t ∧
        c'.start_time = c.start_time
  | c, [] => ⟨c, [], rfl, rfl⟩
  | c, nxt :: rest => by
    by_cases h : nxt.start_time ≤ c.end_time + tol
    · obtain ⟨c', t, heq, hst⟩ := mergeLoop_head_start tol k (mergedSeg k c nxt) rest
      exact ⟨c', t, by simpa [mergeLoop, h, mergedSeg] using heq, hst⟩
    · exact ⟨c, mergeLoop tol k nxt rest, by simp [mergeLoop, h], rfl⟩

theorem mergeLoop_speaker (tol : ℚ) (k : String) :
    ∀ (c : SpeakerSegment) (rest : List SpeakerSegment),
      c.speaker_id = k → (∀ x ∈ rest, x.speaker_id = k) →
      ∀ y ∈ mergeLoop tol k c rest, y.speaker_id = k
  | c, [], hc, _ => by
    intro y hy
    simp only [mergeLoop, List.mem_singleton] at hy
    exact hy ▸ hc
  | c, nxt :: rest, hc, hrest => by
    intro y hy
    by_cases h : nxt.start_time ≤ c.end_time + tol
    · simp only [mergeLoop, if_pos h] at hy
      exact mergeLoop_speaker tol k _ rest rfl
        (fun x hx => hrest x (List.mem_cons_of_mem nxt hx)) y hy
    · simp only [mergeLoop, if_neg h, List.mem_cons] at hy
      rcases hy with hy | hy
      · exact hy ▸ hc
      · exact mergeLoop_speaker tol k nxt rest (hrest nxt (List.mem_cons_self nxt rest))
          (fun x hx => hrest x (List.mem_cons_of_mem nxt hx)) y hy

theorem mergeLoop_start_le (tol : ℚ) (k : String) :
    ∀ (c : SpeakerSegment) (rest : List SpeakerSegment),
      (c :: rest).Pairwise segLE →
      ∀ y ∈ mergeLoop tol k c rest, c.start_time ≤ y.start_time
  | c, [], _ => by
    intro y hy
    simp only [mergeLoop, List.mem_singleton] at hy
    exact hy ▸ le_refl _
  | c, nxt :: rest, hp => by
    intro y hy
    have hp' : (mergedSeg k c nxt :: rest).Pairwise segLE := by
      rcases List.pairwise_cons.mp hp with ⟨hhead, htail⟩
      apply List.pairwise_cons.mpr
      refine ⟨?_, (List.pairwise_cons.mp htail).2⟩
      intro x hx
      exact hhead x (List.mem_cons_of_mem nxt hx)
    by_cases h : nxt.start_time ≤ c.end_time + tol
    · simp only [mergeLoop, if_pos h] at hy
      have := mergeLoop_start_le tol k (mergedSeg k c nxt) rest hp' y (by
        simpa [mergedSeg] using hy)
      simpa [mergedSeg] using this
    · simp only [mergeLoop, if_neg h, List.mem_cons] at hy
      rcases hy with hy | hy
      · exact hy ▸ le_refl _
      · have h1 : segLE c nxt :=
          (List.pairwise_cons.mp hp).1 nxt (List.mem_cons_self nxt rest)
        have h2 := mergeLoop_start_le tol k nxt rest
          (List.pairwise_cons.mp hp).2 y hy
        exact le_trans h1 h2

theorem mergeLoop_sorted (tol : ℚ) (k : String) :
    ∀ (c : SpeakerSegment) (rest : List SpeakerSegment),
      (c :: rest).Pairwise segLE →
      (mergeLoop tol k c rest).Pairwise segLE
  | c, [], _ => by simp [mergeLoop]
  | c, nxt :: rest, hp => by
    have hp' : (mergedSeg k c nxt :: rest).Pairwise segLE := by
      rcases List.pairwise_cons.mp hp with ⟨hhead, htail⟩
      apply List.pairwise_cons.mpr
      refine ⟨?_, (List.pairwise_cons.mp htail).2⟩
      intro x hx
      exact hhead x (List.mem_cons_of_mem nxt hx)
    by_cases h : nxt.start_time ≤ c.end_time + tol
    · simp only [mergeLoop, if_pos h]
      have := mergeLoop_sorted tol k (mergedSeg k c nxt) rest hp'
      simpa [mergedSeg] using this
    · simp only [mergeLoop, if_neg h]
      apply List.pairwise_cons.mpr
      constructor
      · intro y hy
        have h1 : segLE c nxt :=
          (List.pairwise_cons.mp hp).1 nxt (List.mem_cons_self nxt rest)
        have h2 := mergeLoop_start_le tol k nxt rest
          (List.pairwise_cons.mp hp).2 y hy
        exact le_trans h1 h2
      · exact mergeLoop_sorted tol k nxt rest (List.pairwise_cons.mp hp).2

theorem mergeLoop_gap (tol : ℚ) (k : String) :
    ∀ (c : SpeakerSegment) (rest : List SpeakerSegment),
      (c :: rest).Pairwise segLE →
      (mergeLoop tol k c rest).Chain' (gapGT tol)
  | c, [], _ => by simp [mergeLoop]
  | c, nxt :: rest, hp => by
    have hp' : (mergedSeg k c nxt :: rest).Pairwise segLE := by
      rcases List.pairwise_cons.mp hp with ⟨hhead, htail⟩
      apply List.pairwise_cons.mpr
      refine ⟨?_, (List.pairwise_cons.mp htail).2⟩
      intro x hx
      exact hhead x (List.mem_cons_of_mem nxt hx)
    by_cases h : nxt.start_time ≤ c.end_time + tol
    · simp only [mergeLoop, if_pos h]
      have := mergeLoop_gap tol k (mergedSeg k c nxt) rest hp'
      simpa [mergedSeg] using this
    · simp only [mergeLoop, if_neg h]
      obtain ⟨c', t, heq, hst⟩ := mergeLoop_head_start tol k nxt rest
      rw [heq]
      apply List.chain'_cons.mpr
      constructor
      · show gapGT tol c c'
        unfold gapGT
        rw [hst]
        exact lt_of_not_le h
      · have := mergeLoop_gap tol k nxt rest (List.pairwise_cons.mp hp).2
        rwa [heq] at this

theorem mergeLoop_of_gap (tol : ℚ) (k : String) :
    ∀ (c : SpeakerSegment) (rest : List SpeakerSegment),
      (c :: rest).Chain' (gapGT tol) →
      mergeLoop tol k c rest = c :: rest
  | _, [], _ => rfl
  | c, nxt :: rest, hch => by
    rcases List.chain'_cons.mp hch with ⟨hgap, hch'⟩
    have h : ¬ nxt.start_time ≤ c.end_time + tol := not_le.mpr hgap
    simp only [mergeLoop, if_neg h]
    exact congrArg _ (mergeLoop_of_gap tol k nxt rest hch')

theorem mergeGroup_ne_nil (tol : ℚ) (k : String) (g : List SpeakerSegment)
    (hg : g ≠ []) : mergeGroup tol k g ≠ [] := by
  unfold mergeGroup
  have hne : List.insertionSort segLE g ≠ [] := by
    intro h
    have := (List.perm_insertionSort segLE g).length_eq
    rw [h] at this
    exact hg (List.length_eq_zero.mp this.symm)
  cases heq : List.insertionSort segLE g with
  | nil => exact absurd heq hne
  | cons c rest => exact mergeLoop_ne_nil tol k c rest

theorem mergeGroup_speaker (tol : ℚ) (k : String) (g : List SpeakerSegment)
    (hg : ∀ x ∈ g, x.speaker_id = k) :
    ∀ y ∈ mergeGroup tol k g, y.speaker_id = k := by
  unfold mergeGroup
  cases heq : List.insertionSort segLE g with
  | nil => simp
  | cons c rest =>
    have hmem : ∀ x ∈ c :: rest, x.speaker_id = k := by
      intro x hx
      exact hg x ((List.perm_insertionSort segLE g).mem_iff.mp (heq ▸ hx))
    exact mergeLoop_speaker tol k c rest
      (hmem c (List.mem_cons_self c rest))
      (fun x hx => hmem x (List.mem_cons_of_mem c hx))

theorem mergeGroup_sorted (tol : ℚ) (k : String) (g : List SpeakerSegment) :
    (mergeGroup tol k g).Pairwise segLE := by
  unfold mergeGroup
  cases heq : List.insertionSort segLE g with
  | nil => simp
  | cons c rest =>
    exact mergeLoop_sorted tol k c rest (heq ▸ List.sorted_insertionSort segLE g)

theorem mergeGroup_gap (tol : ℚ) (k : String) (g : List SpeakerSegment) :
    (mergeGroup tol k g).Chain' (gapGT tol) := by
  unfold mergeGroup
  cases heq : List.insertionSort segLE g with
  | nil => simp
  | cons c rest =>
    exact mergeLoop_gap tol k c rest (heq ▸ List.sorted_insertionSort segLE g)

theorem mergeGroup_of_sorted_gap (tol : ℚ) (k : String)
    (g : List SpeakerSegment) (hs : g.Pairwise segLE)
    (hch : g.Chain' (gapGT tol)) : mergeGroup tol k g = g := by
  unfold mergeGroup
  rw [List.Sorted.insertionSort_eq hs]
  cases g with
  | nil => rfl
  | cons c rest => exact mergeLoop_of_gap tol k c rest hch

theorem mergeGroup_perm_mergeLoop (tol : ℚ) (k : String)
    (g : List SpeakerSegment) (hs : g.Pairwise segLE) :
    mergeGroup tol k g =
      match g with
      | [] => []
      | c :: rest => mergeLoop tol k c rest := by
  unfold mergeGroup
  rw [List.Sorted.insertionSort_eq hs]
  cases g <;> rfl

theorem groupBySpeaker_bucket_speaker (segs : List SpeakerSegment) :
    ∀ kg ∈ groupByKey SpeakerSegment.speaker_id segs, ∀ x ∈ kg.2,
      x.speaker_id = kg.1 := by
  intro kg hkg x hx
  have hfilt := (groupByKey_spec SpeakerSegment.speaker_id segs).1 kg hkg
  rw [hfilt] at hx
  exact beq_iff_eq.mp (List.mem_filter.mp hx).2

theorem flatten_groups_filter (tol : ℚ) (k : String) :
    ∀ gs : List (String × List SpeakerSegment),
      (∀ kg ∈ gs, ∀ x ∈ kg.2, x.speaker_id = kg.1) →
      ((gs.map fun kg =>
          (mergeGroup tol kg.1 kg.2).filter (fun s => s.speaker_id == k)).flatten) =
        ((gs.filter (fun kg => kg.1 == k)).map
          fun kg => mergeGroup tol kg.1 kg.2).flatten
  | [], _ => rfl
  | kg :: gs, hspk => by
    have hhead : ∀ x ∈ kg.2, x.speaker_id = kg.1 :=
      hspk kg (List.mem_cons_self kg gs)
    have htail := flatten_groups_filter tol k gs
      (fun kg' hkg' => hspk kg' (List.mem_cons_of_mem kg hkg'))
    by_cases hk : kg.1 = k
    · have hall : (mergeGroup tol kg.1 kg.2).filter (fun s => s.speaker_id == k) =
          mergeGroup tol kg.1 kg.2 := by
        rw [List.filter_eq_self]
        intro y hy
        rw [beq_iff_eq, mergeGroup_speaker tol kg.1 kg.2 hhead y hy]
        exact hk
      have hkb : (kg.1 == k) = true := by rw [beq_iff_eq]; exact hk
      rw [List.map_cons, List.flatten_cons, hall, List.filter_cons, if_pos hkb,
        List.map_cons, List.flatten_cons, htail]
    · have hnone : (mergeGroup tol kg.1 kg.2).filter (fun s => s.speaker_id == k) = [] := by
        rw [List.filter_eq_nil_iff]
        intro y hy hbeq
        exact hk ((mergeGroup_speaker tol kg.1 kg.2 hhead y hy).symm.trans
          (beq_iff_eq.mp hbeq))
      have hkb : ¬ ((kg.1 == k) = true) := by simpa [beq_iff_eq] using hk
      rw [List.map_cons, List.flatten_cons, hnone, List.nil_append,
        List.filter_cons, if_neg hkb, htail]

theorem filter_key_of_not_mem {gs : List (String × List SpeakerSegment)}
    {k : String} (h : k ∉ gs.map Prod.fst) :
    gs.filter (fun kg => kg.1 == k) = [] := by
  rw [List.filter_eq_nil_iff]
  intro kg hkg hbeq
  exact h ((beq_iff_eq.mp hbeq) ▸ List.mem_map_of_mem Prod.fst hkg)

theorem filter_key_of_mem :
    ∀ {gs : List (String × List SpeakerSegment)} {k : String}
      {kg₀ : String × List SpeakerSegment},
      (gs.map Prod.fst).Nodup → kg₀ ∈ gs → kg₀.1 = k →
      gs.filter (fun kg => kg.1 == k) = [kg₀] := by
  intro gs
  induction gs with
  | nil => intro k kg₀ _ h; exact absurd h (List.not_mem_nil kg₀)
  | cons kg gs ih =>
    intro k kg₀ hnd hmem hk
    simp only [List.map_cons, List.nodup_cons] at hnd
    rcases List.mem_cons.mp hmem with heq | hmem'
    · have hkb : (kg.1 == k) = true := by
        rw [beq_iff_eq, ← heq]
        exact hk
      have hrest : gs.filter (fun kg' => kg'.1 == k) = [] := by
        apply filter_key_of_not_mem
        intro hkmem
        apply hnd.1
        rw [← heq, hk]
        exact hkmem
      rw [List.filter_cons, if_pos hkb, hrest, heq]
    · have hkne : kg.1 ≠ k := by
        intro h
        apply hnd.1
        rw [h, ← hk]
        exact List.mem_map_of_mem Prod.fst hmem'
      have hkb : (kg.1 == k) = false := beq_eq_false_iff_ne.mpr hkne
      simp only [List.filter_cons, hkb]
      exact ih hnd.2 hmem' hk

/-- Per-speaker characterisation of the merge: the output segments carrying
speaker `k` are exactly `k`'s input segments, sorted by start time and folded
by the merge loop.  In particular segments of different speakers are never
merged with each other. -/
theorem merge_filter_key (segs : List SpeakerSegment) (tol : ℚ) (k : String) :
    (merge_overlapping_segments segs tol).filter (fun s => s.speaker_id == k) =
      mergedOfSpeaker tol k segs := by
  by_cases h0 : segs = []
  · subst h0
    simp [merge_overlapping_segments, mergedOfSpeaker, mergeGroup]
  obtain ⟨hfilt, hnd, hiff⟩ := groupByKey_spec SpeakerSegment.speaker_id segs
  rw [merge_ne_nil_eq segs tol h0, insertionSort_filter segLE,
    List.filter_flatten, List.map_map]
  have hcomp : ((List.filter fun s => s.speaker_id == k) ∘
      fun kg => mergeGroup tol kg.1 kg.2) =
      fun kg : String × List SpeakerSegment =>
        (mergeGroup tol kg.1 kg.2).filter (fun s => s.speaker_id == k) := rfl
  rw [hcomp, flatten_groups_filter tol k _ (groupBySpeaker_bucket_speaker segs)]
  by_cases hmem : k ∈ (groupByKey SpeakerSegment.speaker_id segs).map Prod.fst
  · rcases List.mem_map.mp hmem with ⟨kg₀, hkg₀, hkg₀k⟩
    rw [filter_key_of_mem hnd hkg₀ hkg₀k]
    simp only [List.map_cons, List.map_nil, List.flatten_cons, List.flatten_nil,
      List.append_nil]
    rw [List.Sorted.insertionSort_eq (mergeGroup_sorted tol kg₀.1 kg₀.2)]
    unfold mergedOfSpeaker
    rw [hfilt kg₀ hkg₀, hkg₀k]
  · rw [filter_key_of_not_mem hmem]
    have hfe : segs.filter (fun s => s.speaker_id == k) = [] := by
      rw [List.filter_eq_nil_iff]
      intro s hs hbeq
      apply hmem
      rw [hiff k, ← beq_iff_eq.mp hbeq]
      exact List.mem_map_of_mem SpeakerSegment.speaker_id hs
    simp [mergedOfSpeaker, hfe, mergeGroup]

/-- The merge output is globally sorted by `start_time`. -/
theorem merge_sorted (segs : List SpeakerSegment) (tol : ℚ) :
    (merge_overlapping_segments segs tol).Pairwise segLE := by
  by_cases h0 : segs = []
  · subst h0
    exact List.Pairwise.nil
  · rw [merge_ne_nil_eq segs tol h0]
    exact List.sorted_insertionSort segLE _

/-- Re-running the merge on its own output permutes it but computes no new
segments: each bucket of the second run is a per-speaker merged list of the
first run, which the merge loop leaves unchanged. -/
theorem merge_idem_perm (segs : List SpeakerSegment) (tol : ℚ) :
    List.Perm
      (merge_overlapping_segments (merge_overlapping_segments segs tol) tol)
      (merge_overlapping_segments segs tol) := by
  by_cases h0 : segs = []
  · subst h0
    simp [merge_overlapping_segments]
  by_cases hO0 : merge_overlapping_segments segs tol = []
  · rw [hO0]
    simp [merge_overlapping_segments]
  obtain ⟨hfilt₂, hnd₂, hiff₂⟩ :=
    groupByKey_spec SpeakerSegment.speaker_id (merge_overlapping_segments segs tol)
  have hbucket : ∀ kg ∈ groupByKey SpeakerSegment.speaker_id
      (merge_overlapping_segments segs tol),
      mergeGroup tol kg.1 kg.2 = kg.2 := by
    intro kg hkg
    have h2 := hfilt₂ kg hkg
    have h3 := merge_filter_key segs tol kg.1
    rw [h2, h3]
    unfold mergedOfSpeaker
    exact mergeGroup_of_sorted_gap tol kg.1 _
      (mergeGroup_sorted tol kg.1 _) (mergeGroup_gap tol kg.1 _)
  have hmapeq : (groupByKey SpeakerSegment.speaker_id
        (merge_overlapping_segments segs tol)).map
        (fun kg => mergeGroup tol kg.1 kg.2) =
      (groupByKey SpeakerSegment.speaker_id
        (merge_overlapping_segments segs tol)).map Prod.snd :=
    List.map_congr_left hbucket
  rw [merge_ne_nil_eq _ tol hO0, hmapeq]
  exact (List.perm_insertionSort segLE _).trans
    (groupByKey_flatten_perm SpeakerSegment.speaker_id _)

theorem foldl_max_init_le (b : ℚ) : ∀ l : List ℚ, b ≤ l.foldl max b
  | [] => le_refl b
  | x :: l => le_trans (le_max_left b x) (foldl_max_init_le (max b x) l)

theorem le_foldl_max (x : ℚ) : ∀ (l : List ℚ) (b : ℚ), x ∈ l → x ≤ l.foldl max b
  | [], _, hx => absurd hx (List.not_mem_nil x)
  | y :: l, b, hx => by
    rcases List.mem_cons.mp hx with h | h
    · subst h
      simp only [List.foldl_cons]
      exact le_trans (le_max_right b x) (foldl_max_init_le (max b x) l)
    · simp only [List.foldl_cons]
      exact le_foldl_max x l (max b y) h

theorem foldl_max_of_all_le (b : ℚ) :
    ∀ l : List ℚ, (∀ x ∈ l, x ≤ b) → l.foldl max b = b
  | [], _ => rfl
  | x :: l, h => by
    have hx : max b x = b := max_eq_left (h x (List.mem_cons_self x l))
    simp only [List.foldl_cons, hx]
    exact foldl_max_of_all_le b l (fun y hy => h y (List.mem_cons_of_mem x hy))

theorem findLoop_fst (ts : TranscriptionSegment) :
    ∀ (l : List SpeakerSegment) (b : ℚ) (bs : Option String), 0 ≤ b →
      (findLoop ts l b bs).1 = (l.map (posRatio ts)).foldl max b
  | [], _, _, _ => rfl
  | ss :: l, b, bs, hb => by
    by_cases hpos : max ts.start_time ss.start_time < min ts.end_time ss.end_time
    · have hr : posRatio ts ss =
          (min ts.end_time ss.end_time - max ts.start_time ss.start_time) / ts.duration := by
        rw [posRatio, if_pos hpos]
      by_cases hlt : b <
          (min ts.end_time ss.end_time - max ts.start_time ss.start_time) / ts.duration
      · rw [findLoop, if_pos hpos, if_pos hlt,
          findLoop_fst ts l _ _ (le_trans hb (le_of_lt hlt)),
          List.map_cons, List.foldl_cons, hr, max_eq_right (le_of_lt hlt)]
      · rw [findLoop, if_pos hpos, if_neg hlt, findLoop_fst ts l b bs hb,
          List.map_cons, List.foldl_cons, hr, max_eq_left (not_lt.mp hlt)]
    · have hr : posRatio ts ss = 0 := by
        rw [posRatio, if_neg hpos]
      rw [findLoop, if_neg hpos, findLoop_fst ts l b bs hb,
        List.map_cons, List.foldl_cons, hr, max_eq_left hb]

theorem findLoop_snd (ts : TranscriptionSegment) :
    ∀ (l : List SpeakerSegment) (b : ℚ) (bs : Option String),
      ((findLoop ts l b bs).2 = bs ∧ (findLoop ts l b bs).1 = b) ∨
        (∃ ss ∈ l, (findLoop ts l b bs).2 = some ss.speaker_id ∧
          posRatio ts ss = (findLoop ts l b bs).1)
  | [], _, _ => Or.inl ⟨rfl, rfl⟩
  | ss :: l, b, bs => by
    by_cases hpos : max ts.start_time ss.start_time < min ts.end_time ss.end_time
    · have hr : posRatio ts ss =
          (min ts.end_time ss.end_time - max ts.start_time ss.start_time) / ts.duration := by
        rw [posRatio, if_pos hpos]
      by_cases hlt : b <
          (min ts.end_time ss.end_time - max ts.start_time ss.start_time) / ts.duration
      · rw [findLoop, if_pos hpos, if_pos hlt]
        rcases findLoop_snd ts l
            ((min ts.end_time ss.end_time - max ts.start_time ss.start_time) / ts.duration)
            (some ss.speaker_id) with ⟨h2, h1⟩ | ⟨ss', hss', h2, h1⟩
        · exact Or.inr ⟨ss, List.mem_cons_self ss l, h2, by rw [hr, h1]⟩
        · exact Or.inr ⟨ss', List.mem_cons_of_mem ss hss', h2, h1⟩
      · rw [findLoop, if_pos hpos, if_neg hlt]
        rcases findLoop_snd ts l b bs with ⟨h2, h1⟩ | ⟨ss', hss', h2, h1⟩
        · exact Or.inl ⟨h2, h1⟩
        · exact Or.inr ⟨ss', List.mem_cons_of_mem ss hss', h2, h1⟩
    · rw [findLoop, if_neg hpos]
      rcases findLoop_snd ts l b bs with ⟨h2, h1⟩ | ⟨ss', hss', h2, h1⟩
      · exact Or.inl ⟨h2, h1⟩
      · exact Or.inr ⟨ss', List.mem_cons_of_mem ss hss', h2, h1⟩

theorem groupByKey_bucket_ne_nil {α : Type} (key : α → String) (l : List α) :
    ∀ kg ∈ groupByKey key l, kg.2 ≠ [] := by
  intro kg hkg
  obtain ⟨hfilt, _, hiff⟩ := groupByKey_spec key l
  have hk : kg.1 ∈ (groupByKey key l).map Prod.fst :=
    List.mem_map_of_mem Prod.fst hkg
  rw [hiff] at hk
  rcases List.mem_map.mp hk with ⟨s, hs, hks⟩
  rw [hfilt kg hkg]
  intro hnil
  have : s ∈ l.filter (fun x => key x == kg.1) :=
    List.mem_filter.mpr ⟨hs, by rw [beq_iff_eq]; exact hks⟩
  rw [hnil] at this
  exact List.not_mem_nil s this

/-- The `if not segments: continue` guard never fires: filtering the groups
by nonemptiness is the identity. -/
theorem groups_filter_nonempty {α : Type} (key : α → String) (l : List α) :
    (groupByKey key l).filter (fun kg => !kg.2.isEmpty) = groupByKey key l := by
  rw [List.filter_eq_self]
  intro kg hkg
  have := groupByKey_bucket_ne_nil key l kg hkg
  simp [List.isEmpty_iff, this]

/-- Characterisation of the event synthesizer: the batch is sorted by start
time, has one event per distinct speaker key, and the event of key `k` is
built from exactly the transcription segments whose key is `k`. -/
theorem create_audio_events_spec (session_id : String)
    (transcription : TranscriptionResult) (diarization : DiarizationResult)
    (chunks : List AudioChunk) :
    (create_audio_events session_id transcription diarization chunks).Pairwise eventLE ∧
      (create_audio_events session_id transcription diarization chunks).length =
        ((transcription.segments.map speakerKey).dedup).length ∧
      (∀ ev ∈ create_audio_events session_id transcription diarization chunks,
        ∃ k, k ∈ transcription.segments.map speakerKey ∧
          ev = mkEvent session_id transcription diarization chunks k
            (transcription.segments.filter (fun s => speakerKey s == k))) ∧
      (∀ k ∈ transcription.segments.map speakerKey,
        mkEvent session_id transcription diarization chunks k
            (transcription.segments.filter (fun s => speakerKey s == k)) ∈
          create_audio_events session_id transcription diarization chunks) := by
  obtain ⟨hfilt, hnd, hiff⟩ := groupByKey_spec speakerKey transcription.segments
  have hunfold : create_audio_events session_id transcription diarization chunks =
      List.insertionSort eventLE
        ((groupByKey speakerKey transcription.segments).map
          (fun kg => mkEvent session_id transcription diarization chunks kg.1 kg.2)) := by
    rw [create_audio_events, groups_filter_nonempty]
  have hperm : List.Perm
      (create_audio_events session_id transcription diarization chunks)
      ((groupByKey speakerKey transcription.segments).map
        (fun kg => mkEvent session_id transcription diarization chunks kg.1 kg.2)) := by
    rw [hunfold]
    exact List.perm_insertionSort eventLE _
  refine ⟨?_, ?_, ?_, ?_⟩
  · rw [hunfold]
    exact List.sorted_insertionSort eventLE _
  · rw [hperm.length_eq, List.length_map]
    have hkeysperm : List.Perm
        ((groupByKey speakerKey transcription.segments).map Prod.fst)
        ((transcription.segments.map speakerKey).dedup) := by
      rw [List.perm_ext_iff_of_nodup hnd (List.nodup_dedup _)]
      intro k
      rw [List.mem_dedup]
      exact hiff k
    have := hkeysperm.length_eq
    rwa [List.length_map] at this
  · intro ev hev
    have hev' := hperm.mem_iff.mp hev
    rcases List.mem_map.mp hev' with ⟨kg, hkg, hkgev⟩
    refine ⟨kg.1, ?_, ?_⟩
    · rw [← hiff kg.1]
      exact List.mem_map_of_mem Prod.fst hkg
    · rw [← hkgev]
      congr 1
      exact hfilt kg hkg
  · intro k hk
    have hkmem : k ∈ (groupByKey speakerKey transcription.segments).map Prod.fst :=
      (hiff k).mpr hk
    rcases List.mem_map.mp hkmem with ⟨kg, hkg, hkgk⟩
    apply hperm.mem_iff.mpr
    apply List.mem_map.mpr
    refine ⟨kg, hkg, ?_⟩
    rw [← hkgk]
    congr 1
    rw [hfilt kg hkg]

/-- The speaker key is never the empty string. -/
theorem speakerKey_ne_empty (seg : TranscriptionSegment) : speakerKey seg ≠ "" := by
  unfold speakerKey
  cases hs : seg.speaker_id with
  | none => decide
  | some s =>
    by_cases h : s = ""
    · simp [h]
    · simp [h]

/-- Segments with an unset (`None`) or empty speaker id fall into the
`"unknown"` bucket. -/
theorem speakerKey_of_unset (seg : TranscriptionSegment)
    (h : seg.speaker_id = none ∨ seg.speaker_id = some "") :
    speakerKey seg = "unknown" := by
  unfold speakerKey
  rcases h with h | h
  · rw [h]
  · rw [h]
    simp

theorem merge_two_same_speaker (tol : ℚ) (s1 s2 : SpeakerSegment)
    (hsp : s1.speaker_id = s2.speaker_id) (hle : s1.start_time ≤ s2.start_time) :
    merge_overlapping_segments [s1, s2] tol =
      if s2.start_time ≤ s1.end_time + tol then [mergedSeg s1.speaker_id s1 s2]
      else [s1, s2] := by
  have hgroups : groupByKey SpeakerSegment.speaker_id [s1, s2] =
      [(s1.speaker_id, [s1, s2])] := by
    simp [groupByKey, addToGroups, hsp]
  have hsort : List.insertionSort segLE [s1, s2] = [s1, s2] := by
    simp [List.insertionSort, List.orderedInsert, keyLE, hle]
  rw [merge_ne_nil_eq _ tol (by simp), hgroups]
  simp only [List.map_cons, List.map_nil, List.flatten_cons, List.flatten_nil,
    List.append_nil]
  unfold mergeGroup
  rw [hsort]
  by_cases hm : s2.start_time ≤ s1.end_time + tol
  · rw [if_pos hm]
    simp [mergeLoop, hm, mergedSeg, List.insertionSort, List.orderedInsert]
  · rw [if_neg hm]
    simp only [mergeLoop, if_neg hm]
    exact hsort

theorem merge_two_diff_speaker (tol : ℚ) (s1 s2 : SpeakerSegment)
    (hsp : s1.speaker_id ≠ s2.speaker_id) :
    merge_overlapping_segments [s1, s2] tol =
      List.insertionSort segLE [s1, s2] := by
  have hgroups : groupByKey SpeakerSegment.speaker_id [s1, s2] =
      [(s1.speaker_id, [s1]), (s2.speaker_id, [s2])] := by
    simp [groupByKey, addToGroups, hsp]
  rw [merge_ne_nil_eq _ tol (by simp), hgroups]
  simp [mergeGroup, mergeLoop, List.insertionSort, List.orderedInsert]

/-- C1 (code bug exhibit): the dispatch queue is NOT a bounded FIFO.
`AudioProcessor.__init__` constructs `asyncio.Queue()` with the default
`maxsize = 0`, i.e. unbounded, and `ProcessingConfig` has no queue-capacity
field, although `_on_audio_chunk` carries an `except asyncio.QueueFull`
log-and-drop handler whose intent matches the spec.  Consequently
`put_nowait` always succeeds and never drops: three dispatches from an empty
queue leave it at length 3 with zero drops, so `len(queue) ≤ capacity` fails
for any alleged configured capacity below 3 and the overflow branch is dead
code. -/
theorem c1_queue_unbounded :
    (∀ (q : List (List AudioChunk)) (w : List AudioChunk),
      put_nowait processorQueueMaxsize q w = some (q ++ [w])) ∧
      c1Run.processing_queue.length = 3 ∧ c1Run.dropped = 0 := by
  refine ⟨fun q w => by simp [put_nowait, processorQueueMaxsize], ?_, ?_⟩ <;>
    norm_num [c1Run, c1Chunk, on_audio_chunk, put_nowait, chunkDuration,
      processorQueueMaxsize]

/-- C2 (counterexample): `Merge(Merge(segments)) = Merge(segments)` fails as
list equality.  On `[A:[5,6], B:[0,1], B:[5,6]]` with tolerance 1/2 the
first run groups speaker A before B and the stable global sort leaves
`A:[5,6]` before `B:[5,6]`; the second run groups B first (order of first
occurrence in the sorted output), so the tie at start time 5 is resolved the
other way round. -/
theorem c2_counterexample :
    merge_overlapping_segments (merge_overlapping_segments cexSegs (1/2)) (1/2) ≠
      merge_overlapping_segments cexSegs (1/2) := by
  norm_num [merge_overlapping_segments, groupByKey, addToGroups, mergeGroup,
    mergeLoop, mergedSeg, List.insertionSort, List.orderedInsert, segLE, keyLE,
    cexSegs, cexA, cexB1, cexB2, SpeakerSegment.mk.injEq]
  exact fun h => absurd h (by decide)

/-- C2 (amended): for every segment list and every tolerance, re-running
`merge_overlapping_segments` on its own output yields a permutation of that
output — the same multiset of segments, in both runs sorted by start time;
only the relative order of segments of different speakers with equal start
times can change. -/
theorem c2_merge_idem_up_to_perm (segs : List SpeakerSegment) (tol : ℚ) :
    List.Perm
      (merge_overlapping_segments (merge_overlapping_segments segs tol) tol)
      (merge_overlapping_segments segs tol) :=
  merge_idem_perm segs tol

/-- C3: alignment assigns a speaker iff the transcription segment has
positive duration and the maximal overlap ratio strictly exceeds 1/2; the
assigned speaker is one achieving the maximal ratio; a maximal ratio of
exactly 1/2, a nonpositive duration, or zero overlap with every candidate
all leave the speaker unset. -/
theorem c3_speaker_selection (ts : TranscriptionSegment)
    (cands : List SpeakerSegment) :
    ((find_speaker_for_segment ts cands).isSome ↔
      0 < ts.duration ∧ 1/2 < bestRatio ts cands) ∧
    (∀ sid, find_speaker_for_segment ts cands = some sid →
      ∃ ss ∈ cands, ss.speaker_id = sid ∧ posRatio ts ss = bestRatio ts cands ∧
        ∀ ss' ∈ cands, posRatio ts ss' ≤ posRatio ts ss) ∧
    (bestRatio ts cands = 1/2 → find_speaker_for_segment ts cands = none) ∧
    (ts.duration ≤ 0 → find_speaker_for_segment ts cands = none) ∧
    ((∀ ss ∈ cands,
        min ts.end_time ss.end_time - max ts.start_time ss.start_time ≤ 0) →
      find_speaker_for_segment ts cands = none) := by
  have hfst : (findLoop ts cands 0 none).1 = bestRatio ts cands :=
    findLoop_fst ts cands 0 none (le_refl 0)
  have hnone : ∀ sid, find_speaker_for_segment ts cands = some sid →
      0 < ts.duration ∧ 1/2 < bestRatio ts cands ∧
        (findLoop ts cands 0 none).2 = some sid := by
    intro sid hsid
    rw [find_speaker_for_segment] at hsid
    by_cases hd : ts.duration ≤ 0
    · rw [if_pos hd] at hsid
      exact absurd hsid (by simp)
    · rw [if_neg hd] at hsid
      by_cases hb : 1/2 < (findLoop ts cands 0 none).1
      · rw [if_pos hb] at hsid
        exact ⟨not_le.mp hd, hfst ▸ hb, hsid⟩
      · rw [if_neg hb] at hsid
        exact absurd hsid (by simp)
  refine ⟨⟨?_, ?_⟩, ?_, ?_, ?_, ?_⟩
  · intro hsome
    rcases Option.isSome_iff_exists.mp hsome with ⟨sid, hsid⟩
    obtain ⟨h1, h2, _⟩ := hnone sid hsid
    exact ⟨h1, h2⟩
  · rintro ⟨hd, hb⟩
    have hb' : 1/2 < (findLoop ts cands 0 none).1 := by
      rw [hfst]
      exact hb
    rw [find_speaker_for_segment, if_neg (not_le.mpr hd), if_pos hb']
    rcases findLoop_snd ts cands 0 none with ⟨_, h1⟩ | ⟨ss, _, h2, _⟩
    · rw [h1] at hb'
      norm_num at hb'
    · rw [h2]
      rfl
  · intro sid hsid
    obtain ⟨hd, hb, h2⟩ := hnone sid hsid
    rcases findLoop_snd ts cands 0 none with ⟨h2', h1'⟩ | ⟨ss, hss, h2', h1'⟩
    · rw [h2'] at h2
      exact absurd h2 (by simp)
    · rw [h2'] at h2
      refine ⟨ss, hss, Option.some.inj h2, by rw [h1', hfst], ?_⟩
      intro ss' hss'
      have hle : posRatio ts ss' ≤ bestRatio ts cands :=
        le_foldl_max (posRatio ts ss') (cands.map (posRatio ts)) 0
          (List.mem_map_of_mem (posRatio ts) hss')
      rw [h1', hfst]
      exact hle
  · intro hb
    rw [find_speaker_for_segment]
    by_cases hd : ts.duration ≤ 0
    · rw [if_pos hd]
    · rw [if_neg hd, if_neg]
      rw [hfst, hb]
      exact lt_irrefl _
  · intro hd
    rw [find_speaker_for_segment, if_pos hd]
  · intro hzero
    rw [find_speaker_for_segment]
    by_cases hd : ts.duration ≤ 0
    · rw [if_pos hd]
    · rw [if_neg hd, if_neg]
      rw [hfst]
      have hall : ∀ x ∈ cands.map (posRatio ts), x ≤ 0 := by
        intro x hx
        rcases List.mem_map.mp hx with ⟨ss, hss, hxss⟩
        have hzr : posRatio ts ss = 0 := by
          rw [posRatio, if_neg]
          intro hlt
          have := hzero ss hss
          linarith
        rw [← hxss, hzr]
      rw [bestRatio, foldl_max_of_all_le 0 _ hall]
      norm_num

/-- C3 witness: the spec scenario — transcription segment `[1,3]` against
`A:[2,3]` gives overlap 1 and ratio exactly 1/2, so no speaker is
assigned. -/
theorem c3_speaker_selection_witness :
    bestRatio c3ts [c3ssHalf] = 1/2 ∧
      find_speaker_for_segment c3ts [c3ssHalf] = none :=
  have hb : bestRatio c3ts [c3ssHalf] = 1/2 := by
    norm_num [bestRatio, posRatio, TranscriptionSegment.duration, c3ts,
      c3ssHalf, max_def, min_def]
  ⟨hb, (c3_speaker_selection c3ts [c3ssHalf]).2.2.1 hb⟩

/-- C4: two consecutive same-speaker segments merge exactly when
`next.startTime ≤ current.endTime + tolerance`, into a segment keeping the
current start, the max end and the max confidence; two different-speaker
segments are returned unmerged (only stably sorted); in general the output
segments of each speaker are exactly that speaker's inputs sorted and folded
(so different speakers never merge), and the returned list is globally
sorted by start time. -/
theorem c4_merge_rule (tol : ℚ) (s1 s2 : SpeakerSegment)
    (segs : List SpeakerSegment) (k : String) :
    (s1.speaker_id = s2.speaker_id → s1.start_time ≤ s2.start_time →
      merge_overlapping_segments [s1, s2] tol =
        if s2.start_time ≤ s1.end_time + tol then
          [mergedSeg s1.speaker_id s1 s2]
        else [s1, s2]) ∧
    (s1.speaker_id ≠ s2.speaker_id →
      merge_overlapping_segments [s1, s2] tol =
        List.insertionSort segLE [s1, s2]) ∧
    ((merge_overlapping_segments segs tol).filter
        (fun s => s.speaker_id == k) = mergedOfSpeaker tol k segs) ∧
    (merge_overlapping_segments segs tol).Pairwise segLE :=
  ⟨merge_two_same_speaker tol s1 s2, merge_two_diff_speaker tol s1 s2,
    merge_filter_key segs tol k, merge_sorted segs tol⟩

/-- C4 witness: the spec scenario — `A:[0,2]` and `A:[2.3,4]` with tolerance
1/2 merge into `A:[0,4]`, while `A:[0,2]` and `B:[2.4,4]` stay unmerged. -/
theorem c4_merge_rule_witness :
    merge_overlapping_segments [c4a1, c4a2] (1/2) =
        [⟨"A", 0, 4, 1, [], "s"⟩] ∧
      merge_overlapping_segments [c4a1, c4b] (1/2) = [c4a1, c4b] := by
  constructor
  · have h := (c4_merge_rule (1/2) c4a1 c4a2 [] "A").1 rfl
      (by norm_num [c4a1, c4a2])
    rw [h, if_pos (by norm_num [c4a1, c4a2])]
    norm_num [mergedSeg, c4a1, c4a2]
  · have h := (c4_merge_rule (1/2) c4a1 c4b [] "A").2.1 (by decide)
    rw [h]
    norm_num [List.insertionSort, List.orderedInsert, keyLE, c4a1, c4b]

/-- C5 (counterexample): the synthesized event's text is NOT the plain
single-space concatenation of the group's texts — the code strips it.  For
a group whose only text is `" hi "` the concatenation is `" hi "` but the
emitted event carries `"hi"`. -/
theorem c5_counterexample :
    (create_audio_events "s" c5ctr c5cdr []).map AudioEvent.text = ["hi"] ∧
      String.intercalate " " ((c5ctr.segments.filter
        (fun s => speakerKey s == "A")).map TranscriptionSegment.text) =
        " hi " ∧
      ("hi" : String) ≠ " hi " := by
  refine ⟨?_, by decide, by decide⟩
  decide

/-- C5 (amended): the Event Synthesizer builds one event per speaker group
(one per distinct speaker key, in particular), whose text is the group's
texts joined with single spaces and then stripped of leading/trailing
whitespace, whose start/end times are the group's min/max, whose confidence
is the group's mean, and whose attached speaker segments are exactly the
diarization segments of that speaker; the batch is sorted non-decreasing by
start time. -/
theorem c5_event_synthesis (session_id : String) (tr : TranscriptionResult)
    (dr : DiarizationResult) (chunks : List AudioChunk) :
    (create_audio_events session_id tr dr chunks).Pairwise eventLE ∧
      (create_audio_events session_id tr dr chunks).length =
        ((tr.segments.map speakerKey).dedup).length ∧
      (∀ k ∈ tr.segments.map speakerKey,
        ∃ ev ∈ create_audio_events session_id tr dr chunks,
          ev.speaker_id = some k ∧
            ev.text = pyStrip (String.intercalate " "
              ((tr.segments.filter (fun s => speakerKey s == k)).map
                TranscriptionSegment.text)) ∧
            ev.start_time = pyMin
              ((tr.segments.filter (fun s => speakerKey s == k)).map
                TranscriptionSegment.start_time) ∧
            ev.end_time = pyMax
              ((tr.segments.filter (fun s => speakerKey s == k)).map
                TranscriptionSegment.end_time) ∧
            ev.confidence = pyMean
              ((tr.segments.filter (fun s => speakerKey s == k)).map
                TranscriptionSegment.confidence) ∧
            ev.speaker_segments = dr.segments.filter
              (fun s => s.speaker_id == k)) ∧
      (∀ ev ∈ create_audio_events session_id tr dr chunks,
        ∃ k ∈ tr.segments.map speakerKey, ev.speaker_id = some k) := by
  obtain ⟨hsorted, hlen, hall, hmem⟩ :=
    create_audio_events_spec session_id tr dr chunks
  refine ⟨hsorted, hlen, ?_, ?_⟩
  · intro k hk
    exact ⟨mkEvent session_id tr dr chunks k
        (tr.segments.filter (fun s => speakerKey s == k)),
      hmem k hk, rfl, rfl, rfl, rfl, rfl, rfl⟩
  · intro ev hev
    obtain ⟨k, hk, hevk⟩ := hall ev hev
    refine ⟨k, hk, ?_⟩
    rw [hevk]
    rfl

/-- C5 witness: for a concrete window with speakers `A` and unknown, the
event of speaker `A` exists and carries the characterised fields. -/
theorem c5_event_synthesis_witness :
    ∃ ev ∈ create_audio_events "s" wTr wDr [],
      ev.speaker_id = some "A" ∧
        ev.text = pyStrip (String.intercalate " "
          ((wTr.segments.filter (fun s => speakerKey s == "A")).map
            TranscriptionSegment.text)) ∧
        ev.start_time = pyMin
          ((wTr.segments.filter (fun s => speakerKey s == "A")).map
            TranscriptionSegment.start_time) ∧
        ev.end_time = pyMax
          ((wTr.segments.filter (fun s => speakerKey s == "A")).map
            TranscriptionSegment.end_time) ∧
        ev.confidence = pyMean
          ((wTr.segments.filter (fun s => speakerKey s == "A")).map
            TranscriptionSegment.confidence) ∧
        ev.speaker_segments = wDr.segments.filter
          (fun s => s.speaker_id == "A") :=
  (c5_event_synthesis "s" wTr wDr []).2.2.1 "A"
    (by simp [wTr, wSegA, wSegNone, speakerKey])

/-- C6: after an accepted chunk the accumulator dispatches iff the elapsed
time since the last dispatch reaches the process interval AND the buffered
duration (including the new chunk) reaches the minimum; on dispatch the
buffer is cleared and `last_processing_time` advances to the chunk's
timestamp whether the push succeeds or the window is dropped; otherwise
only the appended chunk changes the state. -/
theorem c6_dispatch_condition (pi mad : ℚ) (maxsize : Nat) (st : AccumState)
    (chunk : AudioChunk) :
    (pi ≤ chunk.timestamp - st.last_processing_time ∧
        mad ≤ ((st.audio_buffer ++ [chunk]).map chunkDuration).sum →
      (on_audio_chunk pi mad maxsize st chunk).audio_buffer = [] ∧
        (on_audio_chunk pi mad maxsize st chunk).last_processing_time =
          chunk.timestamp ∧
        (((on_audio_chunk pi mad maxsize st chunk).processing_queue =
              st.processing_queue ++ [st.audio_buffer ++ [chunk]] ∧
            (on_audio_chunk pi mad maxsize st chunk).dropped = st.dropped) ∨
          ((on_audio_chunk pi mad maxsize st chunk).processing_queue =
              st.processing_queue ∧
            (on_audio_chunk pi mad maxsize st chunk).dropped =
              st.dropped + 1))) ∧
    (¬(pi ≤ chunk.timestamp - st.last_processing_time ∧
        mad ≤ ((st.audio_buffer ++ [chunk]).map chunkDuration).sum) →
      on_audio_chunk pi mad maxsize st chunk =
        { st with audio_buffer := st.audio_buffer ++ [chunk] }) := by
  constructor
  · rintro ⟨h1, h2⟩
    simp only [on_audio_chunk, if_pos h1, if_pos h2]
    by_cases hfull : 0 < maxsize ∧ maxsize ≤ st.processing_queue.length
    · rw [put_nowait, if_pos hfull]
      exact ⟨rfl, rfl, Or.inr ⟨rfl, rfl⟩⟩
    · rw [put_nowait, if_neg hfull]
      exact ⟨rfl, rfl, Or.inl ⟨rfl, rfl⟩⟩
  · intro hn
    by_cases h1 : pi ≤ chunk.timestamp - st.last_processing_time
    · have h2 : ¬ mad ≤ ((st.audio_buffer ++ [chunk]).map chunkDuration).sum :=
        fun h2 => hn ⟨h1, h2⟩
      simp only [on_audio_chunk, if_pos h1, if_neg h2]
    · simp only [on_audio_chunk, if_neg h1]

/-- C6 witness: a chunk at time 3 with one second of audio against a fresh
state (interval 2, minimum duration 1) satisfies the dispatch condition,
clears the buffer and advances the dispatch clock. -/
theorem c6_dispatch_condition_witness :
    2 ≤ w6chunk.timestamp - w6st.last_processing_time ∧
      (on_audio_chunk 2 1 0 w6st w6chunk).audio_buffer = [] ∧
      (on_audio_chunk 2 1 0 w6st w6chunk).last_processing_time = 3 := by
  have h := (c6_dispatch_condition 2 1 0 w6st w6chunk).1
    ⟨by norm_num [w6st, w6chunk], by norm_num [w6st, w6chunk, chunkDuration]⟩
  exact ⟨by norm_num [w6st, w6chunk], h.1, h.2.1⟩

/-- C7: `stop_recording` on an active session with a nonempty buffer takes,
in order: stop the recorder, deliver the events of the forced final window
(built from the whole buffer, with no dispatch-condition check — the theorem
needs no interval or duration hypothesis), push one sentinel per worker,
await the workers; the final window's events sit in the delivered stream
before any drained events, and on return the buffer is empty, the task list
cleared and the processing flag down. -/
theorem c7_stop_flushes (d : Capability DiarizationResult)
    (t : Capability TranscriptionResult) (sess : String) (st : ProcState)
    (hrec : st.is_processing = true) (hbuf : st.audio_buffer ≠ []) :
    (stop_recording d t sess st).2 =
      [StopAction.stoppedRecorder,
          StopAction.deliveredFinal
            (process_audio_chunks d t sess st.audio_buffer)] ++
        List.replicate st.processing_tasks StopAction.sentinel ++
        (if st.processing_tasks = 0 then [] else [StopAction.workersAwaited]) ∧
      (∃ drained, (stop_recording d t sess st).1.delivered =
        st.delivered ++ process_audio_chunks d t sess st.audio_buffer ++
          drained) ∧
      (stop_recording d t sess st).1.audio_buffer = [] ∧
      (stop_recording d t sess st).1.is_processing = false ∧
      (stop_recording d t sess st).1.processing_tasks = 0 := by
  have hproc : ¬ (st.is_processing = false) := by
    rw [hrec]
    simp
  have hbe : st.audio_buffer.isEmpty = false := by
    cases h : st.audio_buffer with
    | nil => exact absurd h hbuf
    | cons a l => rfl
  simp only [stop_recording, if_neg hproc, hbe, Bool.false_eq_true, if_false]
  exact ⟨rfl, ⟨_, rfl⟩, by simp, by simp, by simp⟩

/-- C7 witness: with one worker, an empty queue and one buffered chunk, the
trace is stop-recorder, deliver-final-window, one sentinel, await
workers. -/
theorem c7_stop_flushes_witness :
    (stop_recording w7dOk w7tOk "s" w7st).2 =
      [StopAction.stoppedRecorder,
        StopAction.deliveredFinal
          (process_audio_chunks w7dOk w7tOk "s" [w7chunk]),
        StopAction.sentinel, StopAction.workersAwaited] ∧
      (stop_recording w7dOk w7tOk "s" w7st).1.is_processing = false := by
  have h := c7_stop_flushes w7dOk w7tOk "s" w7st rfl (by simp [w7st])
  refine ⟨?_, h.2.2.2.1⟩
  rw [h.1]
  rfl

/-- C8: a worker drains every window up to the sentinel and emits the
concatenation of the per-window event lists, each depending only on its own
window — so a diarize/transcribe failure on one window yields the empty
event list for that window (second conjunct), never an escaping exception
(the drain is a total function), and leaves every other window's events
unchanged (first conjunct). -/
theorem c8_worker_isolation (d : Capability DiarizationResult)
    (t : Capability TranscriptionResult) (sess : String) :
    (∀ ws : List (List AudioChunk),
      processing_worker d t sess (ws.map some ++ [none]) =
        (ws.map (process_audio_chunks d t sess)).flatten) ∧
    (∀ (c : AudioChunk) (cs : List AudioChunk) (e : String),
      d (((c :: cs).map AudioChunk.data).flatten) c.sample_rate sess =
          .error e ∨
        t (((c :: cs).map AudioChunk.data).flatten) c.sample_rate sess =
          .error e →
      process_audio_chunks d t sess (c :: cs) = []) := by
  constructor
  · intro ws
    induction ws with
    | nil => rfl
    | cons w ws ih =>
      simp only [List.map_cons, List.cons_append, processing_worker,
        List.append_eq, ih, List.flatten_cons]
  · intro c cs e herr
    rw [process_audio_chunks]
    rcases herr with herr | herr
    · rw [herr]
      cases t (((c :: cs).map AudioChunk.data).flatten) c.sample_rate sess
      · rfl
      · rfl
    · rw [herr]
      cases d (((c :: cs).map AudioChunk.data).flatten) c.sample_rate sess
      · rfl
      · rfl

/-- C8 witness: a worker fed one window on which diarization raises finishes
cleanly with no events. -/
theorem c8_worker_isolation_witness :
    processing_worker c8dFail c8tOk "s" [some [c8chunk], none] = [] := by
  have h1 := (c8_worker_isolation c8dFail c8tOk "s").1 [[c8chunk]]
  have h2 := (c8_worker_isolation c8dFail c8tOk "s").2 c8chunk [] "model failure"
    (Or.inl rfl)
  have hshape : (([[c8chunk]].map some ++ [none] :
      List (Option (List AudioChunk)))) = [some [c8chunk], none] := rfl
  rw [← hshape, h1]
  simp [h2]

/-- C9: every synthesized event carries `some` non-empty speaker id, and
whenever some transcription segment has a `None` or empty speaker id, an
event with the literal speaker id `"unknown"` is emitted. -/
theorem c9_speaker_always_set (session_id : String) (tr : TranscriptionResult)
    (dr : DiarizationResult) (chunks : List AudioChunk) :
    (∀ ev ∈ create_audio_events session_id tr dr chunks,
      ∃ k, ev.speaker_id = some k ∧ k ≠ "") ∧
    ((∃ seg ∈ tr.segments, seg.speaker_id = none ∨ seg.speaker_id = some "") →
      ∃ ev ∈ create_audio_events session_id tr dr chunks,
        ev.speaker_id = some "unknown") := by
  obtain ⟨_, _, hall, hmem⟩ := create_audio_events_spec session_id tr dr chunks
  constructor
  · intro ev hev
    obtain ⟨k, hk, hevk⟩ := hall ev hev
    rcases List.mem_map.mp hk with ⟨seg, _, hkey⟩
    refine ⟨k, ?_, hkey ▸ speakerKey_ne_empty seg⟩
    rw [hevk]
    rfl
  · rintro ⟨seg, hseg, hunset⟩
    have hk : "unknown" ∈ tr.segments.map speakerKey := by
      rw [← speakerKey_of_unset seg hunset]
      exact List.mem_map_of_mem speakerKey hseg
    exact ⟨_, hmem "unknown" hk, rfl⟩

/-- C9 witness: a window holding a segment with `speaker_id = None` emits an
event whose speaker id is `some "unknown"`. -/
theorem c9_speaker_always_set_witness :
    ∃ ev ∈ create_audio_events "s" wTr wDr [],
      ev.speaker_id = some "unknown" :=
  (c9_speaker_always_set "s" wTr wDr []).2
    ⟨wSegNone, by simp [wTr], Or.inl rfl⟩

/-- C10: alignment is a pure frame: the output has the same number of
segments in the same order, the i-th output segment preserves the i-th
input's text, times, confidence, language and session id and differs at
most in `speaker_id` (set to the alignment result), and all result-level
metadata is preserved. -/
theorem c10_align_preserves (tr : TranscriptionResult)
    (ss : List SpeakerSegment) :
    ((align_with_speaker_diarization tr ss).segments.length =
      tr.segments.length) ∧
    (∀ (i : Nat) (h : i < tr.segments.length)
        (h' : i < (align_with_speaker_diarization tr ss).segments.length),
      ((align_with_speaker_diarization tr ss).segments.get ⟨i, h'⟩).text =
          (tr.segments.get ⟨i, h⟩).text ∧
        ((align_with_speaker_diarization tr ss).segments.get
            ⟨i, h'⟩).start_time = (tr.segments.get ⟨i, h⟩).start_time ∧
        ((align_with_speaker_diarization tr ss).segments.get
            ⟨i, h'⟩).end_time = (tr.segments.get ⟨i, h⟩).end_time ∧
        ((align_with_speaker_diarization tr ss).segments.get
            ⟨i, h'⟩).confidence = (tr.segments.get ⟨i, h⟩).confidence ∧
        ((align_with_speaker_diarization tr ss).segments.get
            ⟨i, h'⟩).language = (tr.segments.get ⟨i, h⟩).language ∧
        ((align_with_speaker_diarization tr ss).segments.get
            ⟨i, h'⟩).session_id = (tr.segments.get ⟨i, h⟩).session_id ∧
        ((align_with_speaker_diarization tr ss).segments.get
            ⟨i, h'⟩).speaker_id =
          find_speaker_for_segment (tr.segments.get ⟨i, h⟩) ss) ∧
    (align_with_speaker_diarization tr ss).full_text = tr.full_text ∧
    (align_with_speaker_diarization tr ss).language = tr.language ∧
    (align_with_speaker_diarization tr ss).processing_time =
      tr.processing_time ∧
    (align_with_speaker_diarization tr ss).timestamp = tr.timestamp ∧
    (align_with_speaker_diarization tr ss).session_id = tr.session_id ∧
    (align_with_speaker_diarization tr ss).model_name = tr.model_name := by
  refine ⟨List.length_map _ _, ?_, rfl, rfl, rfl, rfl, rfl, rfl⟩
  intro i h h'
  have hget : (align_with_speaker_diarization tr ss).segments.get ⟨i, h'⟩ =
      { text := (tr.segments.get ⟨i, h⟩).text
        start_time := (tr.segments.get ⟨i, h⟩).start_time
        end_time := (tr.segments.get ⟨i, h⟩).end_time
        confidence := (tr.segments.get ⟨i, h⟩).confidence
        language := (tr.segments.get ⟨i, h⟩).language
        speaker_id := find_speaker_for_segment (tr.segments.get ⟨i, h⟩) ss
        session_id := (tr.segments.get ⟨i, h⟩).session_id } := by
    simp only [align_with_speaker_diarization, List.get_eq_getElem,
      List.getElem_map]
  rw [hget]
  exact ⟨rfl, rfl, rfl, rfl, rfl, rfl, rfl⟩

/-- C10 witness: the first aligned segment of a concrete result keeps its
text. -/
theorem c10_align_preserves_witness :
    0 < wTr.segments.length ∧
      ((align_with_speaker_diarization wTr []).segments.get
          ⟨0, by simp [align_with_speaker_diarization, wTr]⟩).text =
        (wTr.segments.get ⟨0, by simp [wTr]⟩).text := by
  refine ⟨by simp [wTr], ?_⟩
  exact ((c10_align_preserves wTr []).2.1 0 (by simp [wTr])
    (by simp [align_with_speaker_diarization, wTr])).1

end TrackerA11y
